import Mathlib

/-!
Verification of the incremental analysis-extraction layer and the
target sorter of this repository.

Targets, classpath entries, filesystem paths and dependency-edge payloads
are opaque identifiers in the source; they are embedded as natural numbers.

Two source files are embedded:
* `src/python/pants/backend/graph_info/tasks/sort_targets.py`
  (`SortTargets.console_output`), which calls the library primitive
  `sort_targets` from `pants.build_graph.build_graph`; that primitive is
  not part of the provided sources, so it is modelled from the spec.
* `src/python/pants/backend/jvm/tasks/analysis_extraction.py`
  (`AnalysisExtraction`), whose collaborators (invalidation framework,
  process runner, `MultipleRootedProducts`, `os.path.relpath`) are either
  parameters of the embedding or modelled from the spec.
-/

namespace Pants

/-- A target dependency graph: an association list from a target id to the
ordered list of its direct dependency targets. -/
structure TargetGraph where
  adj : List (Nat × List Nat)
deriving DecidableEq

/-- Association-list lookup (first match wins), used to embed Python dict reads. -/
def lookupA {α : Type} : List (Nat × α) → Nat → Option α
  | [], _ => none
  | (k, v) :: rest, x => if k = x then some v else lookupA rest x

/-- The ordered direct dependencies of a target (empty when absent). -/
def depsOf (g : TargetGraph) (t : Nat) : List Nat :=
  (lookupA g.adj t).getD []

/-- Index of the first occurrence of an element in a list (length when absent). -/
def idxOf : List Nat → Nat → Nat
  | [], _ => 0
  | a :: l, x => if a = x then 0 else idxOf l x + 1

/-- Modelled from the spec: the sorter "Fails with `CycleError` if the
dependency graph (restricted to the reachable subgraph) contains a cycle". -/
inductive CycleError where
  | detected
deriving DecidableEq

/-- Modelled from the spec: depth-first traversal underlying the missing
`sort_targets` primitive.  `visitAll g fuel path ts acc` processes the
worklist `ts`; `path` is the chain of in-progress ancestors (revisiting one
is a cycle), `acc` is the finished postorder (each node appended after all
of its dependencies).  `fuel` bounds recursion depth; `sortTargets` supplies
more fuel than the number of distinct nodes, so it never runs out. -/
def visitAll (g : TargetGraph) : Nat → List Nat → List Nat → List Nat → Option (List Nat)
  | _, _, [], acc => some acc
  | 0, _, _ :: _, _ => none
  | fuel + 1, path, t :: ts, acc =>
    if t ∈ acc then visitAll g fuel path ts acc
    else if t ∈ path then none
    else
      match visitAll g fuel (t :: path) (depsOf g t) acc with
      | none => none
      | some acc' => visitAll g fuel path ts (acc' ++ [t])

/-- Fuel that exceeds the total amount of work any traversal of `g` from
`targets` can perform, so the model's bounded recursion never cuts a run
short: the returned `none` of `sortTargets` can only mean a revisited
in-progress node, i.e. a cycle. -/
def fuelFor (g : TargetGraph) (targets : List Nat) : Nat :=
  2 * (targets.length + g.adj.length + ((g.adj.map Prod.snd).flatten).length) + 1

/-- Modelled from the spec: `sort_targets` "produces targets in an order
where each target appears only after all targets that depend on it
(dependents-before-dependencies, a reverse topological order:
most-dependent-first)", failing with `CycleError` on a reachable cycle.
The depth-first postorder `acc` is dependencies-first, so its reversal is
the dependents-first sequence the primitive returns. -/
def sortTargets (g : TargetGraph) (targets : List Nat) : Except CycleError (List Nat) :=
  match visitAll g (fuelFor g targets) [] targets [] with
  | none => .error .detected
  | some acc => .ok acc.reverse

/-- Embeds `SortTargets.console_output`: sort all context targets, reverse
the sequence unless the `--reverse` option is set, and yield only targets
that are in `context.target_roots`, in order. -/
def consoleOutput (g : TargetGraph) (targets targetRoots : List Nat)
    (reverse : Bool) : Except CycleError (List Nat) :=
  match sortTargets g targets with
  | .error e => .error e
  | .ok sortedTargets =>
    let s := if reverse then sortedTargets else sortedTargets.reverse
    .ok (s.filter (fun t => decide (t ∈ targetRoots)))

/-- One dependency edge: `Step g a b` holds when `b` is a direct dependency of `a`. -/
def Step (g : TargetGraph) (a b : Nat) : Prop := b ∈ depsOf g a

/-- Targets reachable from the input set along dependency edges. -/
inductive ReachableFrom (g : TargetGraph) (targets : List Nat) : Nat → Prop
  | root {t : Nat} : t ∈ targets → ReachableFrom g targets t
  | step {u d : Nat} : ReachableFrom g targets u → d ∈ depsOf g u →
      ReachableFrom g targets d

/-- Invariant of the traversal's accumulator: no duplicates, and each
recorded target's dependencies are recorded strictly earlier. -/
def GoodAcc (g : TargetGraph) (acc : List Nat) : Prop :=
  acc.Nodup ∧ ∀ t ∈ acc, ∀ d ∈ depsOf g t, d ∈ acc ∧ idxOf acc d < idxOf acc t

lemma idxOf_append_left (l₂ : List Nat) {l₁ : List Nat} {x : Nat} (h : x ∈ l₁) :
    idxOf (l₁ ++ l₂) x = idxOf l₁ x := by
  induction l₁ with
  | nil => cases h
  | cons a l ih =>
    by_cases hax : a = x
    · simp [idxOf, hax]
    · have hx : x ∈ l := by
        rcases List.mem_cons.mp h with h1 | h1
        · exact absurd h1.symm hax
        · exact h1
      simp [idxOf, hax, ih hx]

lemma idxOf_append_right (l₂ : List Nat) {l₁ : List Nat} {x : Nat} (h : x ∉ l₁) :
    idxOf (l₁ ++ l₂) x = l₁.length + idxOf l₂ x := by
  induction l₁ with
  | nil => simp
  | cons a l ih =>
    have hax : ¬ a = x := fun hh => h (hh ▸ List.mem_cons_self a l)
    have hx : x ∉ l := fun hx => h (List.mem_cons_of_mem a hx)
    simp [idxOf, hax, ih hx]
    omega

lemma idxOf_lt_length {l : List Nat} {x : Nat} (h : x ∈ l) : idxOf l x < l.length := by
  induction l with
  | nil => cases h
  | cons a l ih =>
    by_cases hax : a = x
    · simp [idxOf, hax]
    · have hx : x ∈ l := by
        rcases List.mem_cons.mp h with h1 | h1
        · exact absurd h1.symm hax
        · exact h1
      have := ih hx
      simp [idxOf, hax]
      omega

lemma pair_sublist_of_idxOf_lt : ∀ {l : List Nat} {a b : Nat}, a ∈ l → b ∈ l →
    idxOf l a < idxOf l b → ([a, b] : List Nat).Sublist l := by
  intro l
  induction l with
  | nil => intro a b ha _ _; cases ha
  | cons c l ih =>
    intro a b ha hb hlt
    by_cases hca : c = a
    · subst hca
      by_cases hcb : c = b
      · subst hcb; simp [idxOf] at hlt
      · have hbl : b ∈ l := by
          rcases List.mem_cons.mp hb with h1 | h1
          · exact absurd h1.symm hcb
          · exact h1
        exact List.Sublist.cons₂ c (List.singleton_sublist.mpr hbl)
    · by_cases hcb : c = b
      · subst hcb
        simp [idxOf, hca] at hlt
      · have hal : a ∈ l := by
          rcases List.mem_cons.mp ha with h1 | h1
          · exact absurd h1.symm hca
          · exact h1
        have hbl : b ∈ l := by
          rcases List.mem_cons.mp hb with h1 | h1
          · exact absurd h1.symm hcb
          · exact h1
        have hlt2 : idxOf l a < idxOf l b := by
          simp [idxOf, hca, hcb] at hlt
          omega
        exact List.Sublist.cons c (ih hal hbl hlt2)

lemma goodAcc_append {g : TargetGraph} {acc : List Nat} {t : Nat}
    (hg : GoodAcc g acc) (ht : t ∉ acc) (hd : ∀ d ∈ depsOf g t, d ∈ acc) :
    GoodAcc g (acc ++ [t]) := by
  obtain ⟨hnd, hgood⟩ := hg
  constructor
  · simp [List.nodup_append, hnd, ht]
  · intro u hu d hdep
    rcases List.mem_append.mp hu with hu | hu
    · obtain ⟨hdm, hlt⟩ := hgood u hu d hdep
      refine ⟨List.mem_append_left _ hdm, ?_⟩
      rw [idxOf_append_left _ hdm, idxOf_append_left _ hu]
      exact hlt
    · have hut : u = t := by simpa using hu
      subst hut
      have hdm := hd d hdep
      refine ⟨List.mem_append_left _ hdm, ?_⟩
      rw [idxOf_append_left _ hdm, idxOf_append_right _ ht]
      have h1 := idxOf_lt_length hdm
      simp [idxOf]
      omega

/-- Core invariant of the traversal: the accumulator only grows, new entries
are never in-progress ancestors, every processed worklist entry ends up
recorded, and goodness of the accumulator is preserved. -/
lemma visitAll_spec (g : TargetGraph) : ∀ (fuel : Nat) (path ts acc acc₂ : List Nat),
    visitAll g fuel path ts acc = some acc₂ →
    (∃ ext, acc₂ = acc ++ ext ∧ ∀ x ∈ ext, x ∉ path) ∧
    (∀ t ∈ ts, t ∈ acc₂) ∧
    (GoodAcc g acc → GoodAcc g acc₂) := by
  intro fuel
  induction fuel with
  | zero =>
    intro path ts acc acc₂ h
    cases ts with
    | nil =>
      simp [visitAll] at h
      subst h
      exact ⟨⟨[], by simp⟩, by simp, fun hg => hg⟩
    | cons t ts => simp [visitAll] at h
  | succ fuel ih =>
    intro path ts acc acc₂ h
    cases ts with
    | nil =>
      simp [visitAll] at h
      subst h
      exact ⟨⟨[], by simp⟩, by simp, fun hg => hg⟩
    | cons t ts =>
      rw [visitAll] at h
      by_cases hta : t ∈ acc
      · rw [if_pos hta] at h
        obtain ⟨⟨ext, hext, hfr⟩, hmem, hgood⟩ := ih path ts acc acc₂ h
        refine ⟨⟨ext, hext, hfr⟩, ?_, hgood⟩
        intro u hu
        rcases List.mem_cons.mp hu with rfl | hu
        · exact hext ▸ List.mem_append_left _ hta
        · exact hmem u hu
      · rw [if_neg hta] at h
        by_cases htp : t ∈ path
        · rw [if_pos htp] at h; cases h
        · rw [if_neg htp] at h
          cases h1 : visitAll g fuel (t :: path) (depsOf g t) acc with
          | none => rw [h1] at h; cases h
          | some acc1 =>
            rw [h1] at h
            simp only [] at h
            obtain ⟨⟨ext1, hext1, hfr1⟩, hmem1, hgood1⟩ :=
              ih (t :: path) (depsOf g t) acc acc1 h1
            obtain ⟨⟨ext2, hext2, hfr2⟩, hmem2, hgood2⟩ :=
              ih path ts (acc1 ++ [t]) acc₂ h
            have htacc1 : t ∉ acc1 := by
              rw [hext1]
              intro hm
              rcases List.mem_append.mp hm with hx | hx
              · exact hta hx
              · exact hfr1 t hx (List.mem_cons_self t path)
            refine ⟨⟨ext1 ++ [t] ++ ext2, ?_, ?_⟩, ?_, ?_⟩
            · rw [hext2, hext1]; simp
            · intro x hx
              rcases List.mem_append.mp hx with hx | hx
              · rcases List.mem_append.mp hx with hx | hx
                · exact fun hp => hfr1 x hx (List.mem_cons_of_mem t hp)
                · have hxt : x = t := by simpa using hx
                  subst hxt; exact htp
              · exact hfr2 x hx
            · intro u hu
              rcases List.mem_cons.mp hu with rfl | hu
              · rw [hext2]
                exact List.mem_append_left _ (List.mem_append_right _ (by simp))
              · exact hmem2 u hu
            · intro hg
              exact hgood2 (goodAcc_append (hgood1 hg) htacc1 hmem1)

/-- A successful sort comes from a good, input-covering accumulator. -/
lemma sortTargets_good {g : TargetGraph} {targets out : List Nat}
    (h : sortTargets g targets = .ok out) :
    ∃ acc, GoodAcc g acc ∧ (∀ t ∈ targets, t ∈ acc) ∧ out = acc.reverse := by
  unfold sortTargets at h
  cases h1 : visitAll g (fuelFor g targets) [] targets [] with
  | none => rw [h1] at h; cases h
  | some acc =>
    rw [h1] at h
    simp at h
    obtain ⟨_, hmem, hgood⟩ := visitAll_spec g _ _ _ _ _ h1
    exact ⟨acc, hgood ⟨List.nodup_nil, by simp⟩, hmem, h.symm⟩

lemma goodAcc_reachable {g : TargetGraph} {targets acc : List Nat}
    (hg : GoodAcc g acc) (hroot : ∀ r ∈ targets, r ∈ acc) :
    ∀ {t : Nat}, ReachableFrom g targets t → t ∈ acc := by
  intro t h
  induction h with
  | root ht => exact hroot _ ht
  | step _ hd ih => exact (hg.2 _ ih _ hd).1

lemma goodAcc_transGen {g : TargetGraph} {acc : List Nat} (hg : GoodAcc g acc) :
    ∀ {a b : Nat}, Relation.TransGen (Step g) a b → a ∈ acc →
      b ∈ acc ∧ idxOf acc b < idxOf acc a := by
  intro a b h
  induction h with
  | single hstep => intro ha; exact hg.2 _ ha _ hstep
  | tail _ hbc ih =>
    intro ha
    obtain ⟨hb, hlt⟩ := ih ha
    obtain ⟨hc, hlt2⟩ := hg.2 _ hb _ hbc
    exact ⟨hc, lt_trans hlt2 hlt⟩

/-- C9: if the dependency graph restricted to the targets reachable from the
input set contains a cycle, the sort fails with `CycleError` and no order is
returned. -/
theorem cycle_yields_error (g : TargetGraph) (targets : List Nat) (t : Nat)
    (hreach : ReachableFrom g targets t) (hcyc : Relation.TransGen (Step g) t t) :
    sortTargets g targets = .error CycleError.detected := by
  cases h1 : visitAll g (fuelFor g targets) [] targets [] with
  | none => unfold sortTargets; rw [h1]
  | some acc =>
    exfalso
    obtain ⟨_, hmem, hgood⟩ := visitAll_spec g _ _ _ _ _ h1
    have hg := hgood ⟨List.nodup_nil, by simp⟩
    have ht : t ∈ acc := goodAcc_reachable hg hmem hreach
    obtain ⟨_, hlt⟩ := goodAcc_transGen hg hcyc ht
    omega

theorem cycle_yields_error_witness :
    sortTargets ⟨[(0, [0])]⟩ [0] = .error CycleError.detected :=
  cycle_yields_error ⟨[(0, [0])]⟩ [0] 0 (ReachableFrom.root (by decide))
    (Relation.TransGen.single
      (show Step ⟨[(0, [0])]⟩ 0 0 from (by decide : (0 : Nat) ∈ depsOf ⟨[(0, [0])]⟩ 0)))

/-- C8: whenever the sort succeeds (in particular for every acyclic graph),
the sequence emitted with reverse=false is exactly the reversal of the
sequence emitted with reverse=true. -/
theorem console_output_reverse_relation (g : TargetGraph) (targets targetRoots out : List Nat)
    (h : consoleOutput g targets targetRoots true = .ok out) :
    consoleOutput g targets targetRoots false = .ok out.reverse := by
  unfold consoleOutput at h ⊢
  cases hs : sortTargets g targets with
  | error e => rw [hs] at h; cases h
  | ok s =>
    rw [hs] at h
    simp only [if_pos, if_neg] at h ⊢
    simp at h
    subst h
    simp [List.filter_reverse]

theorem console_output_reverse_relation_witness :
    consoleOutput ⟨[(0, [1]), (1, [])]⟩ [0, 1] [0, 1] false = .ok ([0, 1] : List Nat).reverse :=
  console_output_reverse_relation ⟨[(0, [1]), (1, [])]⟩ [0, 1] [0, 1] [0, 1] rfl

/-- C7 is false on the code: with target 0 depending on target 1 and
reverse=true the emitted order is [0, 1], so the dependency 1 does not
appear before its dependent 0. -/
theorem reverse_true_dep_before_counterexample :
    consoleOutput ⟨[(0, [1]), (1, [])]⟩ [0, 1] [0, 1] true = .ok [0, 1] ∧
    (1 : Nat) ∈ depsOf ⟨[(0, [1]), (1, [])]⟩ 0 ∧
    ¬ ([1, 0] : List Nat).Sublist [0, 1] :=
  ⟨rfl, by decide, by decide⟩

/-- C7 (amended): in the sorter's output with reverse=true, restricted to the
emitted (reachable) nodes, every dependency of a target T appears after T,
not before it; the output is duplicate-free. -/
theorem reverse_true_dep_after (g : TargetGraph) (targets targetRoots out : List Nat)
    (t d : Nat) (hout : consoleOutput g targets targetRoots true = .ok out)
    (ht : t ∈ out) (hd : d ∈ depsOf g t) (hdo : d ∈ out) :
    out.Nodup ∧ ([t, d] : List Nat).Sublist out := by
  unfold consoleOutput at hout
  cases hs : sortTargets g targets with
  | error e => rw [hs] at hout; cases hout
  | ok s =>
    rw [hs] at hout
    simp at hout
    subst hout
    obtain ⟨acc, hg, _, hrev⟩ := sortTargets_good hs
    subst hrev
    have htf := List.mem_filter.mp ht
    have hdf := List.mem_filter.mp hdo
    have htacc : t ∈ acc := List.mem_reverse.mp htf.1
    obtain ⟨hdacc, hlt⟩ := hg.2 t htacc d hd
    have hpair : ([d, t] : List Nat).Sublist acc :=
      pair_sublist_of_idxOf_lt hdacc htacc hlt
    have hpair2 : ([t, d] : List Nat).Sublist acc.reverse := by
      have hrv := hpair.reverse
      simpa using hrv
    constructor
    · exact (List.nodup_reverse.mpr hg.1).filter _
    · have hfil := hpair2.filter (fun x => decide (x ∈ targetRoots))
      simpa [htf.2, hdf.2] using hfil

theorem reverse_true_dep_after_witness :
    ([0, 1] : List Nat).Nodup ∧ ([0, 1] : List Nat).Sublist [0, 1] :=
  reverse_true_dep_after ⟨[(0, [1]), (1, [])]⟩ [0, 1] [0, 1] [0, 1] 0 1 rfl
    (by decide) (by decide) (by decide)

/-! ### The `AnalysisExtraction` task -/

/-- One value of the `zinc_analysis` product, a triple associated with a
target.  `execute` destructures such a triple as `(cp_entry, _, analysis_file)`
while `_analysis_by_runtime_entry` destructures the same triples as
`(_, cp_entry, analysis_file)`; the three components are therefore kept
positional. -/
structure ZincTriple where
  fst : Nat
  snd : Nat
  thd : Nat
deriving DecidableEq

/-- Embeds `AnalysisExtraction._analysis_by_runtime_entry`: a dict
comprehension keyed by each triple's second component mapping to its third;
a later triple with the same key overwrites an earlier one. -/
def analysisByRuntimeEntry (zincValues : List ZincTriple) : Nat → Option Nat :=
  fun e => zincValues.foldl (fun r tr => if tr.snd = e then some tr.thd else r) none

/-- Embeds `AnalysisExtraction._upstream_analysis`: yield, in classpath
order, each entry paired with its analysis file, silently skipping entries
for which the map holds nothing. -/
def upstreamAnalysis (targetClasspath : List Nat)
    (analysisByCpEntry : Nat → Option Nat) : List (Nat × Nat) :=
  targetClasspath.filterMap
    (fun entry => (analysisByCpEntry entry).map (fun a => (entry, a)))

/-- A parsed summary document: the `products` section (absolute source path
to the list of produced class files) and the `dependencies` section, an
opaque payload passed through verbatim. -/
structure Summary where
  products : List (Nat × List Nat)
  dependencies : Nat
deriving DecidableEq

/-- Modelled from the spec: a `MultipleRootedProducts` value
(`pants.goal.products` is not among the provided sources) is an
"ownership-tagged multiset of output-artifact paths" that is
insertion-additive, embedded as an append-only list of (root, paths)
contributions. -/
abbrev Mrp : Type := List (Nat × List Nat)

/-- The `classes_by_source` product: a defaultdict from a build-root
relative source path to its accumulated rooted products. -/
abbrev SourceMap : Type := List (Nat × Mrp)

/-- The `product_deps_by_src` product: a plain dict from target to its
dependency payload. -/
abbrev TargetMap : Type := List (Nat × Nat)

/-- The bucket a source owns in the per-source map (a fresh empty bucket
when the defaultdict has no entry yet). -/
def mrpOf (m : SourceMap) (src : Nat) : Mrp :=
  (lookupA m src).getD []

/-- Modelled from the spec:
`classes_by_source[source].add_abs_paths(target_cp_entry, classes)` on the
defaultdict — fetch the source's bucket, creating an empty one if absent,
and append the tagged contribution to it, keeping every prior contribution. -/
def addToSource : SourceMap → Nat → Nat → List Nat → SourceMap
  | [], src, entry, classes => [(src, [(entry, classes)])]
  | (s, mrp) :: rest, src, entry, classes =>
    if s = src then (s, mrp ++ [(entry, classes)]) :: rest
    else (s, mrp) :: addToSource rest src entry classes

/-- The source→classes loop of `AnalysisExtraction._register_products`: for
every (absolute source, classes) pair of the summary's products section,
relativize the source against the build root and add the tagged
contribution. -/
def mergeProducts (rel : Nat → Nat) (cpEntry : Nat)
    (prods : List (Nat × List Nat)) (m : SourceMap) : SourceMap :=
  prods.foldl (fun acc p => addToSource acc (rel p.1) cpEntry p.2) m

/-- Python dict assignment `product_deps_by_src[target] = deps`: overwrite
an existing entry in place, append a new key at the end. -/
def setTarget : TargetMap → Nat → Nat → TargetMap
  | [], t, d => [(t, d)]
  | (k, v) :: rest, t, d =>
    if k = t then (k, d) :: rest else (k, v) :: setTarget rest t d

/-- Embeds `AnalysisExtraction._register_products` after the summary has
been parsed: each registration happens only when the corresponding product
map exists (i.e. was requested), matching the two None guards. -/
def registerProducts (rel : Nat → Nat) (target cpEntry : Nat) (summary : Summary)
    (classesBySource : Option SourceMap) (productDepsBySrc : Option TargetMap) :
    Option SourceMap × Option TargetMap :=
  (match classesBySource with
    | none => none
    | some m => some (mergeProducts rel cpEntry summary.products m),
   match productDepsBySrc with
    | none => none
    | some m => some (setTarget m target summary.dependencies))

/-- The invalidation oracle's per-target output: the target, its validity
flag and its private result directory. -/
structure VT where
  target : Nat
  valid : Bool
  resultsDir : Nat
deriving DecidableEq

/-- `AnalysisExtraction._summary_json_file`: the summary path inside the
target's private result directory.  Joining the directory with the fixed
file name is injective on directories, so it is embedded as the directory
id itself. -/
def summaryJsonFile (vt : VT) : Nat := vt.resultsDir

/-- Errors that abort a run: `TaskError` raised by `_extract_analysis`
(carrying the offending target and the tool's exit code), and the IO/key
errors a run would crash with when a summary file or a `zinc_analysis`
entry is missing. -/
inductive ExtractionError where
  | taskError (target : Nat) (exitCode : Nat)
  | missingSummary (path : Nat)
  | missingZincEntry (target : Nat)
deriving DecidableEq

/-- The collaborators of one `execute` run: which products downstream
consumers require, the `zinc_analysis` product, the invalidation oracle's
output, the external tool (modelled by its per-target exit code and the
summary it writes), the filesystem left by previous runs, and build-root
relativization of source paths (`os.path.relpath(·, get_buildroot())`). -/
structure Env where
  reqClassesBySource : Bool
  reqProductDepsBySrc : Bool
  zincAnalysis : List (Nat × ZincTriple)
  allVts : List VT
  toolExit : Nat → Nat
  toolSummary : Nat → Summary
  fs0 : List (Nat × Summary)
  rel : Nat → Nat

/-- Observable state of a run: which targets the external tool was invoked
on, which summary paths were written, which targets had their summary
merged, the filesystem, and the two product maps (absent unless created). -/
structure RunState where
  invocations : List Nat
  writes : List Nat
  merged : List Nat
  fs : List (Nat × Summary)
  classesBySource : Option SourceMap
  productDepsBySrc : Option TargetMap
deriving DecidableEq

/-- Overwrite the file at a path. -/
def fsWrite : List (Nat × Summary) → Nat → Summary → List (Nat × Summary)
  | [], p, s => [(p, s)]
  | (q, t) :: rest, p, s =>
    if q = p then (q, s) :: rest else (q, t) :: fsWrite rest p s

/-- Embeds `AnalysisExtraction._create_products_if_should_run`: create an
empty map for each required product kind; the task should run when at least
one kind is required. -/
def createProductsIfShouldRun (reqC reqD : Bool) :
    Bool × Option SourceMap × Option TargetMap :=
  (reqC || reqD,
   (if reqC then some [] else none),
   (if reqD then some [] else none))

/-- Embeds `AnalysisExtraction._extract_analysis`: run the external tool
(its argument vector carries the summary path, the target's analysis file,
its classpath and the upstream analysis map); a non-zero exit status raises
`TaskError` with the target identity and the exit code, otherwise the tool
has written the summary file. -/
def extractAnalysis (env : Env) (target path : Nat) (fs : List (Nat × Summary)) :
    Except ExtractionError (List (Nat × Summary)) :=
  if env.toolExit target ≠ 0 then .error (.taskError target (env.toolExit target))
  else .ok (fsWrite fs path (env.toolSummary target))

/-- One iteration of the loop in `AnalysisExtraction.execute`: read the
target's `zinc_analysis` triple, extract if and only if the invalidation
oracle marked the target invalid, then — regardless of validity — parse the
target's summary file and register its products.  (The source parses inside
`_register_products`; the parse is surfaced here so a missing file aborts
the run.) -/
def execStep (env : Env) (st : RunState) (vt : VT) : Except ExtractionError RunState :=
  match lookupA env.zincAnalysis vt.target with
  | none => .error (.missingZincEntry vt.target)
  | some triple =>
    match (if vt.valid then Except.ok st
           else
             match extractAnalysis env vt.target (summaryJsonFile vt) st.fs with
             | .error e => Except.error e
             | .ok fs1 =>
               Except.ok { st with
                 invocations := st.invocations ++ [vt.target],
                 writes := st.writes ++ [summaryJsonFile vt],
                 fs := fs1 } : Except ExtractionError RunState) with
    | .error e => .error e
    | .ok st1 =>
      match lookupA st1.fs (summaryJsonFile vt) with
      | none => .error (.missingSummary (summaryJsonFile vt))
      | some summary =>
        .ok { st1 with
          merged := st1.merged ++ [vt.target],
          classesBySource := (registerProducts env.rel vt.target triple.fst summary
            st1.classesBySource st1.productDepsBySrc).1,
          productDepsBySrc := (registerProducts env.rel vt.target triple.fst summary
            st1.classesBySource st1.productDepsBySrc).2 }

/-- The per-target loop of `AnalysisExtraction.execute`; the first error
aborts the whole run. -/
def execLoop (env : Env) : List VT → RunState → Except ExtractionError RunState
  | [], st => .ok st
  | vt :: vts, st =>
    match execStep env st vt with
    | .error e => .error e
    | .ok st1 => execLoop env vts st1

/-- The state at the start of a run. -/
def initState (fs : List (Nat × Summary)) (cbs : Option SourceMap)
    (pds : Option TargetMap) : RunState :=
  ⟨[], [], [], fs, cbs, pds⟩

/-- Embeds `AnalysisExtraction.execute`: if no computed product is
necessary, return immediately; otherwise iterate the invalidation oracle's
output. -/
def execute (env : Env) : Except ExtractionError RunState :=
  let created := createProductsIfShouldRun env.reqClassesBySource env.reqProductDepsBySrc
  if created.1 = false then .ok (initState env.fs0 none none)
  else execLoop env env.allVts (initState env.fs0 created.2.1 created.2.2)

lemma registerProducts_none_left (rel : Nat → Nat) (target cpEntry : Nat)
    (summary : Summary) (pds : Option TargetMap) :
    (registerProducts rel target cpEntry summary none pds).1 = none := rfl

lemma registerProducts_none_right (rel : Nat → Nat) (target cpEntry : Nat)
    (summary : Summary) (cbs : Option SourceMap) :
    (registerProducts rel target cpEntry summary cbs none).2 = none := rfl

/-- Inversion of one loop iteration: a successful step looked up the
target's triple, extracted exactly when the target was invalid (requiring a
zero tool exit), parsed the summary at the target's summary path, and
registered the parsed products. -/
lemma execStep_ok {env : Env} {st st2 : RunState} {vt : VT}
    (h : execStep env st vt = .ok st2) :
    ∃ triple summary st1,
      lookupA env.zincAnalysis vt.target = some triple ∧
      ((vt.valid = true ∧ st1 = st) ∨
       (vt.valid = false ∧ env.toolExit vt.target = 0 ∧
        st1 = { st with
          invocations := st.invocations ++ [vt.target],
          writes := st.writes ++ [summaryJsonFile vt],
          fs := fsWrite st.fs (summaryJsonFile vt) (env.toolSummary vt.target) })) ∧
      lookupA st1.fs (summaryJsonFile vt) = some summary ∧
      st2 = { st1 with
        merged := st1.merged ++ [vt.target],
        classesBySource := (registerProducts env.rel vt.target triple.fst summary
          st1.classesBySource st1.productDepsBySrc).1,
        productDepsBySrc := (registerProducts env.rel vt.target triple.fst summary
          st1.classesBySource st1.productDepsBySrc).2 } := by
  unfold execStep at h
  cases h0 : lookupA env.zincAnalysis vt.target with
  | none => rw [h0] at h; cases h
  | some triple =>
    rw [h0] at h
    simp only [] at h
    cases hv : vt.valid with
    | true =>
      rw [if_pos hv] at h
      simp only [] at h
      cases h2 : lookupA st.fs (summaryJsonFile vt) with
      | none => rw [h2] at h; simp only [] at h; cases h
      | some summary =>
        rw [h2] at h
        simp only [] at h
        simp only [Except.ok.injEq] at h
        exact ⟨triple, summary, st, rfl, Or.inl ⟨rfl, rfl⟩, h2, h.symm⟩
    | false =>
      rw [if_neg (by simp [hv])] at h
      unfold extractAnalysis at h
      by_cases he : env.toolExit vt.target = 0
      · rw [if_neg (by simp [he])] at h
        simp only [] at h
        cases h2 : lookupA (fsWrite st.fs (summaryJsonFile vt)
            (env.toolSummary vt.target)) (summaryJsonFile vt) with
        | none => rw [h2] at h; simp only [] at h; cases h
        | some summary =>
          rw [h2] at h
          simp only [] at h
          simp only [Except.ok.injEq] at h
          exact ⟨triple, summary, _, rfl, Or.inr ⟨rfl, he, rfl⟩, h2, h.symm⟩
      · rw [if_pos he] at h
        simp only [] at h
        cases h

lemma execLoop_append (env : Env) : ∀ (vts1 vts2 : List VT) (st : RunState),
    execLoop env (vts1 ++ vts2) st =
      match execLoop env vts1 st with
      | .error e => .error e
      | .ok st1 => execLoop env vts2 st1 := by
  intro vts1
  induction vts1 with
  | nil => intro vts2 st; simp [execLoop]
  | cons vt vts1 ih =>
    intro vts2 st
    simp only [List.cons_append, execLoop]
    cases execStep env st vt with
    | error e => rfl
    | ok st1 => exact ih vts2 st1

/-- The trace invariant of the loop: on a successful run the external tool
was invoked on exactly the invalid targets, in order, and every target of
the worklist had its summary merged, in order. -/
lemma execLoop_trace (env : Env) : ∀ (vts : List VT) (st st2 : RunState),
    execLoop env vts st = .ok st2 →
    st2.invocations = st.invocations ++ (vts.filter (fun vt => !vt.valid)).map VT.target ∧
    st2.merged = st.merged ++ vts.map VT.target := by
  intro vts
  induction vts with
  | nil =>
    intro st st2 h
    simp [execLoop] at h
    subst h
    simp
  | cons vt vts ih =>
    intro st st2 h
    rw [execLoop] at h
    cases h1 : execStep env st vt with
    | error e => rw [h1] at h; cases h
    | ok st1 =>
      rw [h1] at h
      simp only [] at h
      obtain ⟨triple, summary, st0, _, hcase, _, hst1⟩ := execStep_ok h1
      obtain ⟨ihi, ihm⟩ := ih st1 st2 h
      rcases hcase with ⟨hv, hst0⟩ | ⟨hv, _, hst0⟩
      · subst hst0
        constructor
        · rw [ihi, hst1]
          simp [hv]
        · rw [ihm, hst1]
          simp
      · constructor
        · rw [ihi, hst1, hst0]
          simp [hv]
        · rw [ihm, hst1, hst0]
          simp

/-- None-ness of each product map is preserved across the loop: a map that
was not created is never touched. -/
lemma execLoop_none (env : Env) : ∀ (vts : List VT) (st st2 : RunState),
    execLoop env vts st = .ok st2 →
    (st.classesBySource = none → st2.classesBySource = none) ∧
    (st.productDepsBySrc = none → st2.productDepsBySrc = none) := by
  intro vts
  induction vts with
  | nil =>
    intro st st2 h
    simp [execLoop] at h
    subst h
    exact ⟨id, id⟩
  | cons vt vts ih =>
    intro st st2 h
    rw [execLoop] at h
    cases h1 : execStep env st vt with
    | error e => rw [h1] at h; cases h
    | ok st1 =>
      rw [h1] at h
      simp only [] at h
      obtain ⟨triple, summary, st0, _, hcase, _, hst1⟩ := execStep_ok h1
      obtain ⟨ihc, ihd⟩ := ih st1 st2 h
      have hmaps : st0.classesBySource = st.classesBySource ∧
          st0.productDepsBySrc = st.productDepsBySrc := by
        rcases hcase with ⟨_, hst0⟩ | ⟨_, _, hst0⟩ <;> subst hst0 <;> exact ⟨rfl, rfl⟩
      constructor
      · intro hc
        apply ihc
        rw [hst1]
        have : st0.classesBySource = none := hmaps.1.trans hc
        simp [this, registerProducts_none_left]
      · intro hd
        apply ihd
        rw [hst1]
        have : st0.productDepsBySrc = none := hmaps.2.trans hd
        simp [this, registerProducts_none_right]

/-- C1: during an orchestration run, the external tool is invoked exactly on
the invalidation oracle's invalid targets (in order), and every target of
the oracle's output set — valid or not — has its summary parsed and merged. -/
theorem extraction_invokes_iff_invalid_and_always_merges (env : Env) (st : RunState)
    (hreq : (env.reqClassesBySource || env.reqProductDepsBySrc) = true)
    (h : execute env = .ok st) :
    st.invocations = (env.allVts.filter (fun vt => !vt.valid)).map VT.target ∧
    st.merged = env.allVts.map VT.target := by
  unfold execute createProductsIfShouldRun at h
  rw [hreq] at h
  simp only [Bool.true_eq_false, if_neg, if_false] at h
  have htr := execLoop_trace env env.allVts _ _ h
  simpa [initState] using htr

theorem extraction_invokes_iff_invalid_and_always_merges_witness :
    RunState.invocations ⟨[6], [8], [5, 6],
      [(7, ⟨[(105, [205])], 305⟩), (8, ⟨[(106, [206])], 306⟩)],
      some [(1105, [(1, [205])]), (1106, [(11, [206])])],
      some [(5, 305), (6, 306)]⟩ =
      (([⟨5, true, 7⟩, ⟨6, false, 8⟩] : List VT).filter (fun vt => !vt.valid)).map VT.target ∧
    RunState.merged ⟨[6], [8], [5, 6],
      [(7, ⟨[(105, [205])], 305⟩), (8, ⟨[(106, [206])], 306⟩)],
      some [(1105, [(1, [205])]), (1106, [(11, [206])])],
      some [(5, 305), (6, 306)]⟩ =
      ([⟨5, true, 7⟩, ⟨6, false, 8⟩] : List VT).map VT.target :=
  extraction_invokes_iff_invalid_and_always_merges
    ⟨true, true,
     [(5, ⟨1, 2, 3⟩), (6, ⟨11, 12, 13⟩)],
     [⟨5, true, 7⟩, ⟨6, false, 8⟩],
     fun _ => 0,
     fun t => ⟨[(100 + t, [200 + t])], 300 + t⟩,
     [(7, ⟨[(105, [205])], 305⟩)],
     fun x => x + 1000⟩
    ⟨[6], [8], [5, 6],
     [(7, ⟨[(105, [205])], 305⟩), (8, ⟨[(106, [206])], 306⟩)],
     some [(1105, [(1, [205])]), (1106, [(11, [206])])],
     some [(5, 305), (6, 306)]⟩
    rfl rfl

/-- C4: when the external tool exits non-zero for a target the run reaches,
the whole orchestration aborts with a fatal `TaskError` carrying that
target's identity and the tool's exit code — no retry, no per-target
partial success. -/
theorem tool_failure_aborts (env : Env) (pre post : List VT) (vt : VT) (st1 : RunState)
    (hreq : (env.reqClassesBySource || env.reqProductDepsBySrc) = true)
    (hvts : env.allVts = pre ++ vt :: post)
    (hpre : execLoop env pre (initState env.fs0
      (createProductsIfShouldRun env.reqClassesBySource env.reqProductDepsBySrc).2.1
      (createProductsIfShouldRun env.reqClassesBySource env.reqProductDepsBySrc).2.2) =
      .ok st1)
    (hz : (lookupA env.zincAnalysis vt.target).isSome)
    (hinvalid : vt.valid = false)
    (hfail : env.toolExit vt.target ≠ 0) :
    execute env = .error (.taskError vt.target (env.toolExit vt.target)) := by
  unfold execute
  have hc1 : (createProductsIfShouldRun env.reqClassesBySource env.reqProductDepsBySrc).1 =
      true := hreq
  simp only [hc1]
  rw [if_neg (by decide)]
  rw [hvts, execLoop_append, hpre]
  simp only []
  rw [execLoop]
  have hstep : execStep env st1 vt = .error (.taskError vt.target (env.toolExit vt.target)) := by
    unfold execStep
    cases h0 : lookupA env.zincAnalysis vt.target with
    | none => rw [h0] at hz; cases hz
    | some triple =>
      simp only []
      rw [if_neg (by simp [hinvalid])]
      unfold extractAnalysis
      rw [if_pos hfail]
  rw [hstep]

theorem tool_failure_aborts_witness :
    execute ⟨true, false, [(5, ⟨1, 2, 3⟩)], [⟨5, false, 7⟩],
      fun _ => 3, fun _ => ⟨[], 0⟩, [], fun x => x⟩ =
      .error (.taskError 5 3) :=
  tool_failure_aborts
    ⟨true, false, [(5, ⟨1, 2, 3⟩)], [⟨5, false, 7⟩],
      fun _ => 3, fun _ => ⟨[], 0⟩, [], fun x => x⟩
    [] [] ⟨5, false, 7⟩ (initState [] (some []) none)
    rfl rfl rfl rfl rfl (by decide)

/-- C5: when neither product kind is required, the orchestrator does
nothing: no tool invocation, no filesystem write, no summary merge, the
filesystem is untouched and neither global map is created. -/
theorem no_products_requested_noop (env : Env)
    (hc : env.reqClassesBySource = false) (hd : env.reqProductDepsBySrc = false) :
    execute env = .ok (initState env.fs0 none none) := by
  unfold execute createProductsIfShouldRun
  rw [hc, hd]
  rfl

theorem no_products_requested_noop_witness :
    execute ⟨false, false, [(5, ⟨1, 2, 3⟩)], [⟨5, false, 7⟩],
      fun _ => 1, fun _ => ⟨[], 0⟩, [], fun x => x⟩ =
      .ok (initState [] none none) :=
  no_products_requested_noop
    ⟨false, false, [(5, ⟨1, 2, 3⟩)], [⟨5, false, 7⟩],
      fun _ => 1, fun _ => ⟨[], 0⟩, [], fun x => x⟩
    rfl rfl

/-- C10: a product kind that is not required stays uncreated and untouched
by every merge of the run: on a successful run the corresponding map is
still `none` at the end. -/
theorem unrequested_map_untouched (env : Env) (st : RunState)
    (h : execute env = .ok st) :
    (env.reqClassesBySource = false → st.classesBySource = none) ∧
    (env.reqProductDepsBySrc = false → st.productDepsBySrc = none) := by
  unfold execute at h
  by_cases hrun : (createProductsIfShouldRun env.reqClassesBySource
      env.reqProductDepsBySrc).1 = false
  · rw [if_pos hrun] at h
    simp only [Except.ok.injEq] at h
    subst h
    exact ⟨fun _ => rfl, fun _ => rfl⟩
  · rw [if_neg hrun] at h
    have hnone := execLoop_none env env.allVts _ _ h
    constructor
    · intro hc
      exact hnone.1 (by simp [initState, createProductsIfShouldRun, hc])
    · intro hd
      exact hnone.2 (by simp [initState, createProductsIfShouldRun, hd])

theorem unrequested_map_untouched_witness :
    RunState.productDepsBySrc ⟨[], [], [5], [(7, ⟨[(20, [30])], 4⟩)],
      some [(20, [(1, [30])])], none⟩ = none :=
  (unrequested_map_untouched
    ⟨true, false, [(5, ⟨1, 2, 3⟩)], [⟨5, true, 7⟩], fun _ => 0, fun _ => ⟨[], 0⟩,
      [(7, ⟨[(20, [30])], 4⟩)], fun x => x⟩
    ⟨[], [], [5], [(7, ⟨[(20, [30])], 4⟩)], some [(20, [(1, [30])])], none⟩
    rfl).2 rfl

/-- C2: the upstream analysis resolver yields exactly the classpath entries
with a known analysis artifact, in classpath order, paired with that
artifact; entries with no artifact are skipped silently (the resolver is a
total function — no error is raised). -/
theorem upstream_analysis_spec (cp : List Nat) (m : Nat → Option Nat) :
    (upstreamAnalysis cp m).map Prod.fst = cp.filter (fun e => (m e).isSome) ∧
    (∀ p ∈ upstreamAnalysis cp m, m p.1 = some p.2) ∧
    (∀ e ∈ cp, m e = none → e ∉ (upstreamAnalysis cp m).map Prod.fst) := by
  have h1 : (upstreamAnalysis cp m).map Prod.fst = cp.filter (fun e => (m e).isSome) := by
    unfold upstreamAnalysis
    induction cp with
    | nil => rfl
    | cons e cp ih =>
      rw [List.filterMap_cons, List.filter_cons]
      cases he : m e with
      | none => simpa [he] using ih
      | some a => simpa [he] using ih
  have h2 : ∀ p ∈ upstreamAnalysis cp m, m p.1 = some p.2 := by
    intro p hp
    unfold upstreamAnalysis at hp
    rw [List.mem_filterMap] at hp
    obtain ⟨a, _, hf⟩ := hp
    cases hma : m a with
    | none => rw [hma] at hf; cases hf
    | some b =>
      rw [hma] at hf
      have hf2 : (a, b) = p := by simpa using hf
      rw [← hf2]
      exact hma
  refine ⟨h1, h2, ?_⟩
  intro e _ hme hmem
  rw [h1, List.mem_filter, hme] at hmem
  simp at hmem

theorem upstream_analysis_spec_witness :
    ((upstreamAnalysis [1, 2, 3] (fun e => if e = 2 then none else some (e + 10))).map
      Prod.fst =
      [1, 2, 3].filter
        (fun e => (if e = 2 then (none : Option Nat) else some (e + 10)).isSome)) ∧
    (fun e => if e = 2 then (none : Option Nat) else some (e + 10)) 1 = some 11 :=
  ⟨(upstream_analysis_spec [1, 2, 3] (fun e => if e = 2 then none else some (e + 10))).1,
   (upstream_analysis_spec [1, 2, 3] (fun e => if e = 2 then none else some (e + 10))).2.1
     (1, 11) (by decide)⟩

lemma mrpOf_addToSource_self : ∀ (m : SourceMap) (src entry : Nat) (classes : List Nat),
    mrpOf (addToSource m src entry classes) src = mrpOf m src ++ [(entry, classes)] := by
  intro m
  induction m with
  | nil => intro src entry classes; simp [addToSource, mrpOf, lookupA]
  | cons p rest ih =>
    intro src entry classes
    obtain ⟨s, mrp⟩ := p
    by_cases hs : s = src
    · subst hs
      simp [addToSource, mrpOf, lookupA]
    · simp only [addToSource, if_neg hs, mrpOf, lookupA]
      simpa [mrpOf] using ih src entry classes

lemma mrpOf_addToSource_other : ∀ (m : SourceMap) (src entry : Nat) (classes : List Nat)
    (src2 : Nat), src2 ≠ src →
    mrpOf (addToSource m src entry classes) src2 = mrpOf m src2 := by
  intro m
  induction m with
  | nil =>
    intro src entry classes src2 h
    have hns : ¬ src = src2 := fun hh => h hh.symm
    simp [addToSource, mrpOf, lookupA, hns]
  | cons p rest ih =>
    intro src entry classes src2 h
    obtain ⟨s, mrp⟩ := p
    by_cases hs : s = src
    · subst hs
      have hs2 : ¬ s = src2 := fun hh => h hh.symm
      simp [addToSource, mrpOf, lookupA, hs2]
    · simp only [addToSource, if_neg hs, mrpOf, lookupA]
      by_cases hs2 : s = src2
      · rw [if_pos hs2, if_pos hs2]
      · rw [if_neg hs2, if_neg hs2]
        exact ih src entry classes src2 h

lemma mergeProducts_spec (rel : Nat → Nat) (cpEntry : Nat) :
    ∀ (prods : List (Nat × List Nat)) (m : SourceMap) (src : Nat),
    mrpOf (mergeProducts rel cpEntry prods m) src =
      mrpOf m src ++
        ((prods.filter (fun p => decide (rel p.1 = src))).map (fun p => (cpEntry, p.2))) := by
  intro prods
  induction prods with
  | nil => intro m src; simp [mergeProducts]
  | cons p prods ih =>
    intro m src
    simp only [mergeProducts, List.foldl_cons]
    have hrec := ih (addToSource m (rel p.1) cpEntry p.2) src
    simp only [mergeProducts] at hrec
    rw [hrec, List.filter_cons]
    by_cases hp : rel p.1 = src
    · rw [hp, mrpOf_addToSource_self]
      simp [hp]
    · rw [mrpOf_addToSource_other m (rel p.1) cpEntry p.2 src (fun hh => hp hh.symm)]
      simp [hp]

/-- C3: merging a summary with the per-source map requested stores every
products pair under the build-root-relativized source path, appending the
output paths tagged with the owning target's classpath entry after all
previously accumulated contributions for that source — additive, never a
replacement. -/
theorem merge_products_additive (rel : Nat → Nat) (target cpEntry : Nat)
    (summary : Summary) (m : SourceMap) (pds : Option TargetMap) :
    (registerProducts rel target cpEntry summary (some m) pds).1 =
      some (mergeProducts rel cpEntry summary.products m) ∧
    ∀ src, mrpOf (mergeProducts rel cpEntry summary.products m) src =
      mrpOf m src ++
        ((summary.products.filter (fun p => decide (rel p.1 = src))).map
          (fun p => (cpEntry, p.2))) :=
  ⟨rfl, fun src => mergeProducts_spec rel cpEntry summary.products m src⟩

lemma lookupA_setTarget_self : ∀ (m : TargetMap) (t d : Nat),
    lookupA (setTarget m t d) t = some d := by
  intro m
  induction m with
  | nil => intro t d; simp [setTarget, lookupA]
  | cons p rest ih =>
    intro t d
    obtain ⟨k, v⟩ := p
    by_cases hk : k = t
    · subst hk
      simp [setTarget, lookupA]
    · simp only [setTarget, if_neg hk, lookupA]
      exact ih t d

lemma lookupA_setTarget_other : ∀ (m : TargetMap) (t d t2 : Nat), t2 ≠ t →
    lookupA (setTarget m t d) t2 = lookupA m t2 := by
  intro m
  induction m with
  | nil =>
    intro t d t2 h
    have hnt : ¬ t = t2 := fun hh => h hh.symm
    simp [setTarget, lookupA, hnt]
  | cons p rest ih =>
    intro t d t2 h
    obtain ⟨k, v⟩ := p
    by_cases hk : k = t
    · subst hk
      have hk2 : ¬ k = t2 := fun hh => h hh.symm
      simp [setTarget, lookupA, hk2]
    · simp only [setTarget, if_neg hk, lookupA]
      by_cases hk2 : k = t2
      · rw [if_pos hk2, if_pos hk2]
      · rw [if_neg hk2, if_neg hk2]
        exact ih t d t2 h

lemma setTarget_keys : ∀ (m : TargetMap) (t d : Nat),
    (setTarget m t d).map Prod.fst =
      if t ∈ m.map Prod.fst then m.map Prod.fst else m.map Prod.fst ++ [t] := by
  intro m
  induction m with
  | nil => intro t d; simp [setTarget]
  | cons p rest ih =>
    intro t d
    obtain ⟨k, v⟩ := p
    by_cases hk : k = t
    · subst hk
      simp [setTarget]
    · have hk2 : ¬ t = k := fun hh => hk hh.symm
      simp only [setTarget, if_neg hk, List.map_cons, ih t d, List.mem_cons]
      by_cases hmem : t ∈ rest.map Prod.fst
      · simp [hmem, hk2]
      · simp [hmem, hk2]

/-- C6: merging a summary with the per-target map requested stores the
summary's dependencies section verbatim under the current target's key,
replacing any prior entry for that target while leaving every other
target's entry unchanged, and the map keeps exactly one entry per target. -/
theorem register_deps_overwrite (rel : Nat → Nat) (target cpEntry : Nat)
    (summary : Summary) (cbs : Option SourceMap) (m : TargetMap) :
    (registerProducts rel target cpEntry summary cbs (some m)).2 =
      some (setTarget m target summary.dependencies) ∧
    lookupA (setTarget m target summary.dependencies) target = some summary.dependencies ∧
    (∀ t2, t2 ≠ target →
      lookupA (setTarget m target summary.dependencies) t2 = lookupA m t2) ∧
    ((m.map Prod.fst).Nodup →
      ((setTarget m target summary.dependencies).map Prod.fst).Nodup ∧
      ((setTarget m target summary.dependencies).map Prod.fst).count target = 1) := by
  refine ⟨rfl, lookupA_setTarget_self m target summary.dependencies,
    fun t2 ht2 => lookupA_setTarget_other m target summary.dependencies t2 ht2, ?_⟩
  intro hnd
  rw [setTarget_keys]
  by_cases hmem : target ∈ m.map Prod.fst
  · rw [if_pos hmem]
    exact ⟨hnd, List.count_eq_one_of_mem hnd hmem⟩
  · rw [if_neg hmem]
    constructor
    · simp [List.nodup_append, hnd, hmem]
    · rw [List.count_append]
      simp [List.count_eq_zero_of_not_mem hmem]

theorem register_deps_overwrite_witness :
    lookupA (setTarget [(0, 5), (1, 6)] 0 9) 0 = some 9 ∧
    lookupA (setTarget [(0, 5), (1, 6)] 0 9) 1 = lookupA [(0, 5), (1, 6)] 1 ∧
    ((setTarget ([(0, 5), (1, 6)] : TargetMap) 0 9).map Prod.fst).count 0 = 1 :=
  ⟨(register_deps_overwrite (fun x => x) 0 0 ⟨[], 9⟩ none [(0, 5), (1, 6)]).2.1,
   (register_deps_overwrite (fun x => x) 0 0 ⟨[], 9⟩ none [(0, 5), (1, 6)]).2.2.1 1
     (by decide),
   ((register_deps_overwrite (fun x => x) 0 0 ⟨[], 9⟩ none [(0, 5), (1, 6)]).2.2.2
     (by decide)).2⟩

end Pants
